import Mathlib

/-!
Shallow embedding of md2roff (md2roff.c): a one-pass markdown-to-roff
transducer.  Strings are modelled as `List Char`; the C NUL terminator is
modelled where it matters by truncating at the first `'\x00'` character.
All definitions are translated from the C source; `decide`/`rfl` can
evaluate them on concrete inputs.
-/

/-- C `isspace` in the default locale (space, \t, \n, \v, \f, \r). -/
def isspace (c : Char) : Bool :=
  c = ' ' || c = '\t' || c = '\n' || c = '\x0b' || c = '\x0c' || c = '\x0d'

/-- C `isalnum` in the default locale, restricted to ASCII. -/
def isalnum (c : Char) : Bool :=
  ('a' ≤ c && c ≤ 'z') || ('A' ≤ c && c ≤ 'Z') || ('0' ≤ c && c ≤ '9')

/-- C `isdigit`. -/
def isdigit (c : Char) : Bool := '0' ≤ c && c ≤ '9'

/-- The `while (isspace(*nc)) nc++; isalnum(*nc)` lookahead of `sqzdup`:
first non-whitespace character at or after the cursor, `'\x00'` (the C
string terminator, not alphanumeric) when none exists. -/
def firstNonSpace : List Char → Char
  | [] => '\x00'
  | c :: cs => if isspace c then firstNonSpace cs else c

/-- Main loop of `sqzdup` (md2roff.c:75-97).  `lc` is the "last was
whitespace" flag, `prev` is `*(p-1)`.  The C guard `p > source` always
holds when a whitespace character is reached, because leading whitespace
has been skipped before the loop, so it is not modelled separately. -/
def sqzdupGo : List Char → Bool → Char → List Char
  | [], _, _ => []
  | c :: cs, lc, prev =>
    if isspace c then
      if lc then sqzdupGo cs true c
      else if isalnum prev then ' ' :: sqzdupGo cs true c
      else if isalnum (firstNonSpace (c :: cs)) then ' ' :: sqzdupGo cs true c
      else sqzdupGo cs true c
    else c :: sqzdupGo cs false c

/-- Trailing-whitespace removal of `sqzdup` (md2roff.c:100-103): the last
character is dropped when it is whitespace (the C code removes exactly
one character). -/
def trimTrailOne : List Char → List Char
  | [] => []
  | [c] => if isspace c then [] else [c]
  | c :: c2 :: cs => c :: trimTrailOne (c2 :: cs)

/-- `sqzdup` (md2roff.c:64-106): skip leading whitespace, run the squeeze
loop, trim one trailing whitespace character.  The initial `prev` is never
read because the first character after the skip is not whitespace. -/
def sqzdup (s : List Char) : List Char :=
  trimTrailOne (sqzdupGo (s.dropWhile (fun c => isspace c)) false '\x00')

/-- Squeeze loop following the words of claim C2: a whitespace run becomes
a single space only when the character immediately before the run AND the
first non-whitespace character after the run are both alphanumeric. -/
def sqzAndGo : List Char → Bool → Char → List Char
  | [], _, _ => []
  | c :: cs, lc, prev =>
    if isspace c then
      if lc then sqzAndGo cs true c
      else if isalnum prev && isalnum (firstNonSpace (c :: cs)) then
        ' ' :: sqzAndGo cs true c
      else sqzAndGo cs true c
    else c :: sqzAndGo cs false c

/-- Squeezer exactly as claim C2 states it (AND of the two checks). -/
def sqzdupSpecAnd (s : List Char) : List Char :=
  trimTrailOne (sqzAndGo (s.dropWhile (fun c => isspace c)) false '\x00')

/-- Squeeze loop following the amended wording of C2: the run becomes a
single space when the character immediately before the run is
alphanumeric, or, when it is not, when the first non-whitespace character
after the run is alphanumeric. -/
def sqzOrGo : List Char → Bool → Char → List Char
  | [], _, _ => []
  | c :: cs, lc, prev =>
    if isspace c then
      if lc then sqzOrGo cs true c
      else if isalnum prev || isalnum (firstNonSpace (c :: cs)) then
        ' ' :: sqzOrGo cs true c
      else sqzOrGo cs true c
    else c :: sqzOrGo cs false c

/-- Squeezer following the amended wording of C2 (OR of the two checks). -/
def sqzdupSpecOr (s : List Char) : List Char :=
  trimTrailOne (sqzOrGo (s.dropWhile (fun c => isspace c)) false '\x00')

/-- Characterization of squeezer output, disallowing a trailing space:
every whitespace character is a single `' '` flanked by a non-space
successor, and the character before the space or the one after it is
alphanumeric (`prev` stands for the character preceding the list). -/
def sqOK : Char → List Char → Bool
  | _, [] => true
  | _, [c] => !isspace c
  | prev, c :: c2 :: cs =>
    if isspace c then
      (c = ' ') && !isspace c2 && (isalnum prev || isalnum c2) && sqOK c (c2 :: cs)
    else sqOK c (c2 :: cs)

/-- Like `sqOK` but a final trailing space is allowed when the character
before it is alphanumeric: the shape of the squeeze loop's raw output
before the one-character trailing trim. -/
def preSq : Char → List Char → Bool
  | _, [] => true
  | prev, [c] => !isspace c || ((c = ' ') && isalnum prev)
  | prev, c :: c2 :: cs =>
    if isspace c then
      (c = ' ') && !isspace c2 && (isalnum prev || isalnum c2) && preSq c (c2 :: cs)
    else preSq c (c2 :: cs)

/-- The four output macro packages (md2roff.c:30). -/
inductive Mpack where
  | mp_mm | mp_man | mp_mdoc | mp_mom
deriving DecidableEq, Repr

/-- Kind of an open list (the C enum values `ol` and `ul`). -/
inductive LKind where
  | ol | ul
deriving DecidableEq, Repr

/-- One entry of the list stack: `stk_list[i]` and `stk_count[i]`
(md2roff.c:193-196). -/
structure LFrame where
  kind : LKind
  count : Int
deriving DecidableEq, Repr

/-- Semantic events accepted by the `roff` emitter (the element-type
enum at md2roff.c:179-188; entries never passed to `roff` are omitted). -/
inductive Event where
  | par_end | ln_brk
  | cblock_end | cblock_open
  | li_open | li_end
  | ol_open | ul_open | lst_close
  | box_open | box_close
  | url_mark (title link : List Char)
  | man_ref (link : List Char)
  | new_sh | new_ss | new_s4
deriving DecidableEq, Repr

/-- Decimal digits of a natural number, fuelled so that it reduces. -/
def natDecAux : Nat → Nat → List Char
  | 0, _ => []
  | fuel + 1, n =>
    if n < 10 then [Char.ofNat (48 + n)]
    else natDecAux fuel (n / 10) ++ [Char.ofNat (48 + n % 10)]

/-- printf %d of a non-negative value. -/
def natDec (n : Nat) : List Char := natDecAux (n + 1) n

/-- printf %d of a C int. -/
def intDec : Int → List Char
  | .ofNat n => natDec n
  | .negSucc n => '-' :: natDec (n + 1)

/-- printf %02d. -/
def pad2 (n : Nat) : List Char := if n < 10 then '0' :: natDec n else natDec n

/-- The synthesized date, format `%d-%02d-%02d` (md2roff.c:459). -/
def dateStr (y m d : Nat) : List Char :=
  natDec y ++ '-' :: pad2 m ++ '-' :: pad2 d

/-- C `atoi` on a scanned digit run. -/
def atoiDec (num : List Char) : Int :=
  Int.ofNat (num.foldl (fun a c => a * 10 + (c.toNat - 48)) 0)

/-- The backtick character. -/
def bt : Char := '\x60'

/-- Contents of a C string buffer: characters up to the first NUL. -/
def cstr (l : List Char) : List Char := l.takeWhile (fun c => c != '\x00')

/-- C `strchr`: split at the first occurrence of `t`, `none` if absent. -/
def chrSplit (t : Char) : List Char → Option (List Char × List Char)
  | [] => none
  | c :: cs =>
    if c = t then some ([], cs)
    else
      match chrSplit t cs with
      | none => none
      | some (a, b) => some (c :: a, b)

/-- C `println` (md2roff.c:163-174): the characters printed (up to and
including the first newline, or all of them), and the rest. -/
def printlnSplit (l : List Char) : List Char × List Char :=
  match chrSplit '\n' l with
  | some (a, b) => (a ++ ['\n'], b)
  | none => (l, [])

/-- C `strrchr(dest, c)` for newline: split at the last newline. -/
def lastNlSplit (l : List Char) : Option (List Char × List Char) :=
  match chrSplit '\n' l.reverse with
  | none => none
  | some (a, b) => some (b.reverse, a.reverse)

/-- Last element, with a default. -/
def lastD (l : List Char) (d : Char) : Char := l.getLast?.getD d

/-- Code-fence test: strncmp against three backticks (md2roff.c:484/619). -/
def isFence : List Char → Bool
  | c1 :: c2 :: c3 :: _ => c1 = bt && c2 = bt && c3 = bt
  | _ => false

/-- Setext rule test: the three strncmp calls at md2roff.c:632-634. -/
def isRule3 : List Char → Bool
  | c1 :: c2 :: c3 :: _ =>
    (c1 = '=' && c2 = '=' && c3 = '=') ||
    (c1 = '-' && c2 = '-' && c3 = '-') ||
    (c1 = '*' && c2 = '*' && c3 = '*')
  | _ => false

/-- The strchr test over the boundary set at md2roff.c:682/707.  C strchr
also finds the NUL terminator, hence the last disjunct. -/
def boundary (pc : Char) : Bool :=
  pc = '(' || pc = '{' || pc = '[' || pc = ',' || pc = '.' || pc = ';' ||
  pc = bt || pc = '\x27' || pc = '"' || pc = ' ' || pc = '\t' || pc = '\n' ||
  pc = '\x00'

/-- Escape-character mapping (md2roff.c:515-525). -/
def escMap (c : Char) : Char :=
  if c = 'n' then '\n'
  else if c = 'r' then '\x0d'
  else if c = 't' then '\t'
  else if c = 'f' then '\x0c'
  else if c = 'b' then '\x08'
  else if c = 'a' then '\x07'
  else if c = 'e' then '\x1b'
  else c

/-- Assignment to `stk_count[stk_list_p-1]` (md2roff.c:611). -/
def setTop (stk : List LFrame) (v : Int) : List LFrame :=
  match stk with
  | [] => []
  | f :: fs => { f with count := v } :: fs

/-- The backend emitter `roff` (md2roff.c:201-404): the emitted
characters and the updated list stack (pushed by the list-open events,
the man ordered-item counter incremented by `li_open`). -/
def roff (mp : Mpack) (stk : List LFrame) : Event → List Char × List LFrame
  | .par_end =>
    (match mp with
     | .mp_mdoc => ".Pp\n".toList
     | _ => ".PP\n".toList, stk)
  | .ln_brk =>
    (match mp with
     | .mp_mom => ".BR\n".toList
     | _ => ".br\n".toList, stk)
  | .url_mark title link =>
    (match mp with
     | .mp_man =>
       if link.elem '@' then
         ".MT ".toList ++ link ++ '\n' :: title ++ "\n.ME\n".toList
       else
         ".UR ".toList ++ link ++ '\n' :: title ++ "\n.UE\n".toList
     | .mp_mdoc =>
       if link.elem '@' then
         ".An ".toList ++ title ++ " Aq Mt ".toList ++ link ++ ['\n']
       else
         ".Lk ".toList ++ link ++ " \"".toList ++ title ++ "\"\n".toList
     | .mp_mm => title ++ " <".toList ++ link ++ ">\n".toList
     | .mp_mom => title ++ " \\*[UL]".toList ++ link ++ "\\*[ULX]\n".toList, stk)
  | .box_open =>
    (match mp with
     | .mp_mom => ".DRH\n".toList
     | .mp_man => ".B\n".toList
     | _ => ".FT B\n".toList, stk)
  | .box_close =>
    (match mp with
     | .mp_mom => ".DRH\n".toList
     | _ => ".FT P\n".toList, stk)
  | .cblock_open =>
    (match mp with
     | .mp_mom => ".CODE\n".toList
     | .mp_mdoc => ".Bd -literal -offset indent\n".toList
     | _ => ".RS 4\n.EX\n".toList, stk)
  | .cblock_end =>
    (match mp with
     | .mp_mom => ".CODE OFF\n".toList
     | .mp_mdoc => ".Ed\n".toList
     | _ => "\n.EE\n.RE\n".toList, stk)
  | .ol_open =>
    let stk' : List LFrame := ⟨.ol, 1⟩ :: stk
    (match mp with
     | .mp_mom =>
       match stk'.length with
       | 1 => ".LIST DIGIT\n".toList
       | 2 => ".LIST ALPHA\n".toList
       | 3 => ".LIST DIGIT\n".toList
       | 4 => ".LIST alpha\n".toList
       | _ => ".LIST DIGIT\n".toList
     | .mp_mdoc => ".Bl -enum -offset indent\n".toList
     | .mp_mm => ".AL\n".toList
     | .mp_man => [], stk')
  | .ul_open =>
    let stk' : List LFrame := ⟨.ul, 1⟩ :: stk
    (match mp with
     | .mp_mom =>
       if stk'.length % 2 = 1 then ".LIST BULLET".toList
       else ".LIST DASH".toList
     | .mp_mdoc =>
       if stk'.length % 2 = 1 then ".Bl -bullet -offset indent".toList
       else ".Bl -dash -offset indent".toList
     | .mp_mm => ".BL\n".toList
     | .mp_man => [], stk')
  | .lst_close =>
    (match mp with
     | .mp_mom => ".LIST OFF\n".toList
     | .mp_mdoc => ".El\n".toList
     | _ => [], stk)
  | .li_open =>
    match mp with
    | .mp_mom => (".ITEM\n".toList, stk)
    | .mp_mdoc => (".It\n".toList, stk)
    | .mp_man =>
      match stk with
      | [] => ([], [])
      | f :: fs =>
        match f.kind with
        | .ul => (".IP \\(bu 4\n".toList, f :: fs)
        | .ol => (".IP ".toList ++ intDec f.count ++ ". 4\n".toList,
                  { f with count := f.count + 1 } :: fs)
    | .mp_mm => (".LI\n".toList, stk)
  | .li_end =>
    (if mp = .mp_mm then ".LE\n".toList else [], stk)
  | .new_sh =>
    (match mp with
     | .mp_mom => ".HEADING 1 \"".toList
     | .mp_mdoc => ".Sh ".toList
     | _ => ".SH ".toList, stk)
  | .new_ss =>
    (match mp with
     | .mp_mom => ".HEADING 2 \"".toList
     | .mp_mdoc => ".Ss ".toList
     | _ => ".SS ".toList, stk)
  | .new_s4 =>
    (match mp with
     | .mp_mom => ".HEADING 3 \"".toList
     | .mp_mdoc => ".Ss ".toList
     | _ => ".SS ".toList, stk)
  | .man_ref link =>
    (match mp with
     | .mp_mdoc => ".Xr ".toList ++ link ++ ['\n']
     | .mp_man =>
       match chrSplit ' ' link with
       | some (nm, rest) =>
         "\\fB".toList ++ nm ++ "\\fP(".toList ++ rest ++ ")\n".toList
       | none => "\\fB".toList ++ link ++ "\\fP\n".toList
     | _ => link ++ ['\n'], stk)

/-- `flushln` (md2roff.c:409-423): characters printed when the pending
buffer is flushed.  The buffer is read as a C string (up to its first
NUL); all-whitespace content prints nothing. -/
def flushln (buf : List Char) : List Char :=
  if buf.isEmpty then []
  else
    let t := cstr (buf.dropWhile (fun c => isspace c))
    if t.isEmpty then [] else sqzdup t ++ ['\n']

/-- Scanner state of `md2roff` (md2roff.c:431-438): the pending buffer
`dest`, the output emitted so far, the four flags, the list stack, and
`prev`, the character at `p-1` (the code falls back to a space at the
very start of the text). -/
structure St where
  buf : List Char
  out : List Char
  bline : Bool
  bcode : Bool
  bold : Bool
  italics : Bool
  stk : List LFrame
  prev : Char
deriving DecidableEq, Repr

/-- A `d = flushln(d, dest)` call site: move the squeezed buffer to the
output and reset the buffer. -/
def flushSt (st : St) : St :=
  { st with out := st.out ++ flushln st.buf, buf := [] }

/-- Bold-on markup (md2roff.c:684-687). -/
def boldOn (mp : Mpack) : List Char :=
  if mp = .mp_mom then "\\*[BD]".toList else "\\fB".toList

/-- Bold-off markup (md2roff.c:675-678). -/
def boldOff (mp : Mpack) : List Char :=
  if mp = .mp_mom then "\\*[PREV]".toList else "\\fP".toList

/-- Italics-on markup (md2roff.c:709-712). -/
def italOn (mp : Mpack) : List Char :=
  if mp = .mp_mom then "\\*[IT]".toList else "\\fI".toList

/-- Italics-off markup (md2roff.c:700-703). -/
def italOff (mp : Mpack) : List Char :=
  if mp = .mp_mom then "\\*[PREV]".toList else "\\fP".toList

/-- Inline-code opening markup (md2roff.c:722-725). -/
def codeOpen (mp : Mpack) : List Char :=
  if mp = .mp_mom then bt :: "\\*[CODE]".toList else bt :: "\\f[CR]".toList

/-- Inline-code closing markup (md2roff.c:735-738). -/
def codeClose (mp : Mpack) : List Char :=
  if mp = .mp_mom then "\\*[CODE OFF]\x27".toList else "\\fP\x27".toList

/-- Control-character swap opening a dot-line in a code block
(md2roff.c:494-497). -/
def escOn (mp : Mpack) : List Char :=
  if mp = .mp_mom then ".ESC_CHAR !\n".toList else ".cc !\n".toList

/-- Control-character swap closing a dot-line in a code block
(md2roff.c:501-506). -/
def escOff (mp : Mpack) : List Char :=
  if mp = .mp_mom then ".ESC_CHAR .\n".toList else "!cc .\n".toList

/-- Link-tail parse (md2roff.c:755-767): label up to the first `]`,
which must be immediately followed by `(`, and target up to the first
`)`; `none` when the syntax does not close. -/
def linkParse (pstart : List Char) :
    Option (List Char × List Char × List Char) :=
  match chrSplit ']' pstart with
  | none => none
  | some (left, r1) =>
    match r1 with
    | '(' :: r2 =>
      match chrSplit ')' r2 with
      | none => none
      | some (rght, r3) => some (left, rght, r3)
    | _ => none

/-- Result of the mid-line section of one loop iteration. -/
inductive InlRes where
  | cont (st : St) (rest : List Char)
  | ret (out : List Char)
  | fatal (out : List Char)
deriving DecidableEq, Repr

/-- The mid-line section of the scanner loop (md2roff.c:628-792), one
iteration: the dispatch on `*p` through the next loop entry.  `.cont`
is a `continue` or falling out of the iteration, `.ret` the bare
`return` in the setext branch when the rule line has no terminating
newline, `.fatal` the `exit(EXIT_FAILURE)` on an unterminated inline
code span (the diagnostic goes to stderr; the output so far is kept). -/
def inl (mp : Mpack) (st : St) : List Char → InlRes
  | [] =>
    -- reached only by falling through with `p` at the NUL terminator:
    -- the default arm appends the NUL and the loop then stops
    .cont { st with buf := st.buf ++ ['\x00'], prev := '\x00' } []
  | c :: cs =>
    if c = '\n' then
      if isRule3 cs then
        match chrSplit '\n' cs with
        | none => .ret st.out
        | some (_, b) =>
          if st.buf.isEmpty then .cont { st with prev := '\n' } b
          else
            match lastNlSplit (cstr st.buf) with
            | some (pre, tl) =>
              let o := st.out ++ (if pre.isEmpty then [] else pre ++ ['\n']) ++
                (roff mp st.stk .new_sh).1 ++ tl ++ ['\n']
              .cont { st with buf := [], out := o, prev := '\n' } b
            | none =>
              let o := st.out ++ (roff mp st.stk .new_sh).1 ++ flushln st.buf
              .cont { st with buf := [], out := o, prev := '\n' } b
      else
        .cont { st with buf := st.buf ++ [' '], bline := true, prev := '\n' } cs
    else if (c = '*' || c = '_') && cs.head? = some c then
      if st.bold then
        .cont { st with bold := false, buf := st.buf ++ boldOff mp, prev := c } cs.tail
      else if boundary st.prev then
        .cont { st with bold := true, buf := st.buf ++ boldOn mp, prev := c } cs.tail
      else
        .cont { st with buf := st.buf ++ [c, c], prev := c } cs.tail
    else if c = '*' || c = '_' then
      if st.italics then
        .cont { st with italics := false, buf := st.buf ++ italOff mp, prev := c } cs
      else if boundary st.prev then
        .cont { st with italics := true, buf := st.buf ++ italOn mp, prev := c } cs
      else
        .cont { st with buf := st.buf ++ [c], prev := c } cs
    else if c = bt then
      match chrSplit bt cs with
      | none => .fatal st.out
      | some (content, after) =>
        let b2 := st.buf ++ codeOpen mp ++ content ++ codeClose mp
        .cont { st with buf := b2, prev := bt } after
    else if c = '[' || (c = '!' && cs.head? = some '[') then
      let pstart := if c = '!' then cs.tail else cs
      match linkParse pstart with
      | some (left, rght, r3) =>
        let st1 := flushSt st
        let ev : Event :=
          if rght = "man".toList then .man_ref left else .url_mark left rght
        .cont { st1 with out := st1.out ++ (roff mp st1.stk ev).1, prev := ')' } r3
      | none =>
        .cont { st with buf := st.buf ++ ['['], prev := '[' } pstart
    else
      .cont { st with buf := st.buf ++ [c], prev := c } cs

/-- Result of the start-of-line section: `.go` is a `continue`, `.fall`
falls through to the mid-line section within the same loop iteration. -/
inductive BlineRes where
  | go (st : St) (rest : List Char)
  | fall (st : St) (rest : List Char)
deriving DecidableEq, Repr

/-- The `#` header branch (md2roff.c:550-585).  `rest` starts with `#`
and the pending buffer has already been flushed by the caller. -/
def headerCase (mp : Mpack) (st : St) (rest : List Char) : BlineRes :=
  match chrSplit '\n' rest with
  | none => .fall st rest
  | some (a, _b) =>
    -- the C test is `*(pnext-1) != '#'`; the two branches are swapped here
    if lastD a '#' = '#' then
      let (ln, b') := printlnSplit rest
      let o := st.out ++ (roff mp st.stk .box_open).1 ++
        (roff mp st.stk .ln_brk).1 ++ ln ++
        (roff mp st.stk .ln_brk).1 ++ (roff mp st.stk .box_close).1
      .go { st with out := o, prev := lastD ln st.prev } b'
    else
      let level := (rest.takeWhile (fun c => c = '#')).length
      let r1 := rest.dropWhile (fun c => c = '#')
      let r2 := r1.dropWhile (fun c => c = ' ' || c = '\t')
      if level = 1 || level = 2 then
        let (ln, rem) := printlnSplit r2
        let o := st.out ++ (roff mp st.stk .new_sh).1 ++ ln
        .fall { st with out := o, prev := lastD ln st.prev } rem
      else if level = 3 then
        let (ln, rem) := printlnSplit r2
        let o := st.out ++ (roff mp st.stk .new_ss).1 ++ ln
        .fall { st with out := o, prev := lastD ln st.prev } rem
      else
        if mp = .mp_man then
          let (ln, rem) := printlnSplit r2
          let o := st.out ++ ".TP\n\\fB".toList ++ ln ++ "\\fR".toList
          .go { st with out := o, prev := lastD ln st.prev } rem
        else
          let o := st.out ++ (roff mp st.stk .new_s4).1
          let sp := r1.takeWhile (fun c => c = ' ' || c = '\t')
          .go { st with out := o, prev := lastD sp '#' } r2

/-- The ordered-list branch (md2roff.c:605-616), entered with the digit
run `num` scanned and `r2` the text after the dot.  Note the counter
assignment `stk_count[stk_list_p-1] = atoi(num)` runs for every ordered
item, not only the first of a list. -/
def olCase (mp : Mpack) (st : St) (num r2 : List Char) : BlineRes :=
  let st1 := flushSt st
  let (o1, s1) :=
    if st1.stk.isEmpty then roff mp st1.stk .ol_open
    else roff mp st1.stk .li_end
  let s2 := setTop s1 (atoiDec num)
  let (o2, s3) := roff mp s2 .li_open
  let sp := r2.takeWhile (fun c => c = ' ' || c = '\t')
  let r' := r2.dropWhile (fun c => c = ' ' || c = '\t')
  .go { st1 with out := st1.out ++ o1 ++ o2, stk := s3, prev := lastD sp '.' } r'

/-- The start-of-line section (md2roff.c:534-626); the caller has
already cleared `bline`. -/
def blineCase (mp : Mpack) (st : St) : List Char → BlineRes
  | [] => .fall st []
  | c :: cs =>
    if c = '\n' then
      let st1 := flushSt st
      let (o1, s1) :=
        if st1.stk.isEmpty then (([] : List Char), st1.stk)
        else
          let (oa, sa) := roff mp st1.stk .li_end
          let (ob, sb) := roff mp sa .lst_close
          (oa ++ ob, sb.tail)
      let (o2, s2) := roff mp s1 .par_end
      .go { st1 with out := st1.out ++ o1 ++ o2, stk := s2, bline := true, prev := '\n' } cs
    else if c = '#' then
      headerCase mp (flushSt st) (c :: cs)
    else if (cs.head? = some ' ' || cs.head? = some '\t') &&
            (c = '*' || c = '+' || c = '-') then
      let st1 := flushSt st
      let (o1, s1) :=
        if st1.stk.isEmpty then roff mp st1.stk .ul_open
        else roff mp st1.stk .li_end
      let (o2, s2) := roff mp s1 .li_open
      .go { st1 with out := st1.out ++ o1 ++ o2, stk := s2, prev := c } cs
    else if isdigit c then
      let num := (c :: cs).takeWhile (fun x => isdigit x)
      match (c :: cs).dropWhile (fun x => isdigit x) with
      | '.' :: r2 => olCase mp st num r2
      | _ => .fall st (c :: cs)
    else if isFence (c :: cs) then
      let st1 := flushSt { st with bcode := true }
      let o := st1.out ++ (roff mp st1.stk .cblock_open).1
      .go { st1 with out := o, prev := bt } ((c :: cs).drop 3)
    else
      .fall st (c :: cs)

/-- One pass of the scanner loop (md2roff.c:476-793), by fuel.  Every
iteration consumes at least one input character, so any fuel exceeding
the remaining length behaves identically; `md2roff` supplies enough.
`Except.error` models `exit(EXIT_FAILURE)` (output emitted so far). -/
def md2roffGo (mp : Mpack) : Nat → St → List Char → Except (List Char) (List Char)
  | 0, st, _ => .error st.out
  | _ + 1, st, [] => .ok (st.out ++ flushln st.buf)
  | n + 1, st, c :: cs =>
    if st.bcode then
      let st1 := flushSt st
      if isFence (c :: cs) then
        let o := st1.out ++ (roff mp st1.stk .cblock_end).1
        md2roffGo mp n { st1 with bcode := false, out := o, prev := bt } ((c :: cs).drop 3)
      else
        let xchg := c = '.'
        let (ln, r') := printlnSplit (c :: cs)
        let o := st1.out ++ (if xchg then escOn mp else []) ++ ln ++
          (if xchg then escOff mp else [])
        md2roffGo mp n { st1 with out := o, prev := lastD ln st1.prev } r'
    else if c = '\\' then
      match cs with
      | [] =>
        md2roffGo mp n { st with buf := st.buf ++ ['\x00'], bline := false, prev := '\x00' } []
      | c2 :: cs2 =>
        md2roffGo mp n { st with buf := st.buf ++ [escMap c2], bline := false, prev := c2 } cs2
    else if st.bline then
      match blineCase mp { st with bline := false } (c :: cs) with
      | .go st' r' => md2roffGo mp n st' r'
      | .fall st' r' =>
        match inl mp st' r' with
        | .cont st2 r2 => md2roffGo mp n st2 r2
        | .ret o => .ok o
        | .fatal o => .error o
    else
      match inl mp st (c :: cs) with
      | .cont st2 r2 => md2roffGo mp n st2 r2
      | .ret o => .ok o
      | .fatal o => .error o

/-- The fixed first comment line of every output document. -/
def xroffLn : List Char := ".\\\" x-roff document\n".toList

/-- The preamble written before the scan loop (md2roff.c:440-472):
returns the emitted output, the remaining source, and the character
preceding the remaining source (a space when nothing was consumed). -/
def preamble (mp : Mpack) (docname : List Char) (y m d : Nat)
    (src : List Char) : List Char × List Char × Char :=
  match mp with
  | .mp_mm => (xroffLn ++ ".do mso m.tmac\n".toList, src, ' ')
  | .mp_mom =>
    (xroffLn ++ ".do mso mom.tmac\n.TITLE \"".toList ++ docname ++
     "\"\n.AUTHOR \"md2roff\"\n.PAPER A4\n.PRINTSTYLE TYPESET\n.START\n".toList,
     src, ' ')
  | mpx =>
    let act := if mpx = .mp_mdoc then ".do mso mdoc.tmac\n".toList
               else ".do mso man.tmac\n".toList
    -- the reads `*p` and `*(p+1)`, yielding NUL past the end
    let c0 := src.headD '\x00'
    let c1 := (src.drop 1).headD '\x00'
    if c0 = '#' && isspace c1 then
      let (ln, rest) := printlnSplit (src.drop 2)
      (xroffLn ++ act ++ ".TH ".toList ++ ln, rest, lastD ln c1)
    else
      (xroffLn ++ act ++ ".TH ".toList ++ docname ++ " 7 ".toList ++
       dateStr y m d ++ " document\n".toList, src, ' ')

/-- Initial scanner state (md2roff.c:431-438): empty buffer, flags
reset, and the list stack reset to empty. -/
def initSt (out0 : List Char) (pv : Char) : St :=
  { buf := [], out := out0, bline := true, bcode := false,
    bold := false, italics := false, stk := [], prev := pv }

/-- Whole-document conversion `md2roff` (md2roff.c:429-797).  `y m d`
stand for the calendar date obtained from the host clock. -/
def md2roff (mp : Mpack) (docname : List Char) (y m d : Nat)
    (src : List Char) : Except (List Char) (List Char) :=
  match preamble mp docname y m d src with
  | (o0, r0, pv) => md2roffGo mp (r0.length + 1) (initSt o0 pv) r0

/-- Conversion completed without a fatal error. -/
def isOkB : Except (List Char) (List Char) → Bool
  | .ok _ => true
  | .error _ => false

/-- The output stream of a conversion result. -/
def outOf : Except (List Char) (List Char) → List Char
  | .ok o => o
  | .error o => o

/-- Contiguous-substring test used to state facts about outputs. -/
def occursIn (pat : List Char) : List Char → Bool
  | [] => pat.isEmpty
  | c :: cs => pat.isPrefixOf (c :: cs) || occursIn pat cs

example : sqzdup "  a   b ".toList = "a b".toList := by decide

example : sqzdup "a .".toList = "a .".toList := by decide

example : sqzdup ". a".toList = ". a".toList := by decide

example : sqzdup "a , b".toList = "a , b".toList := by decide

example : sqzdup "   ".toList = [] := by decide

/-- The squeeze loop agrees with the OR-form spec loop: the C nested
`if isalnum(prev) / else lookahead` decision is the disjunction. -/
theorem sqzdupGo_eq_sqzOrGo :
    ∀ (l : List Char) (lc : Bool) (prev : Char),
      sqzdupGo l lc prev = sqzOrGo l lc prev := by
  intro l
  induction l with
  | nil => intro lc prev; rfl
  | cons c cs ih =>
    intro lc prev
    simp only [sqzdupGo, sqzOrGo]
    by_cases hs : isspace c
    · simp only [hs]
      cases lc with
      | true => simp [ih]
      | false =>
        by_cases hp : isalnum prev
        · simp [hp, ih]
        · by_cases hn : isalnum (firstNonSpace (c :: cs))
          · simp [hp, hn, ih]
          · simp [hp, hn, ih]
    · simp [hs, ih]

/-- The squeezer equals the OR-form spec squeezer on every input. -/
theorem sqzdup_eq_specOr (s : List Char) : sqzdup s = sqzdupSpecOr s := by
  unfold sqzdup sqzdupSpecOr
  rw [sqzdupGo_eq_sqzOrGo]

example : sqzdupSpecAnd "a .".toList = "a.".toList := by decide

theorem dropWhile_shape (p : Char → Bool) :
    ∀ l : List Char, l.dropWhile p = [] ∨
      ∃ y ys, l.dropWhile p = y :: ys ∧ p y = false := by
  intro l
  induction l with
  | nil => left; rfl
  | cons c cs ih =>
    by_cases h : p c
    · simpa [List.dropWhile_cons, h] using ih
    · right; exact ⟨c, cs, by simp [List.dropWhile_cons, h], by simpa using h⟩

theorem dropWhile_length_le (p : Char → Bool) :
    ∀ l : List Char, (l.dropWhile p).length ≤ l.length := by
  intro l
  induction l with
  | nil => simp
  | cons c cs ih =>
    by_cases h : p c
    · simp only [List.dropWhile_cons, h, if_true]
      exact Nat.le_succ_of_le ih
    · simp [List.dropWhile_cons, h]

/-- The lookahead equals the head of the whitespace-stripped remainder. -/
theorem firstNonSpace_eq :
    ∀ l : List Char, firstNonSpace l =
      (match l.dropWhile (fun c => isspace c) with
       | [] => '\x00'
       | y :: _ => y) := by
  intro l
  induction l with
  | nil => rfl
  | cons c cs ih =>
    by_cases h : isspace c
    · simpa [firstNonSpace, h, List.dropWhile_cons] using ih
    · simp [firstNonSpace, h, List.dropWhile_cons]

/-- With the `lc` flag set, the squeeze loop just skips the whitespace
run and resumes copying at the first non-space character. -/
theorem sqzdupGo_true_skip :
    ∀ (l : List Char) (prev : Char), sqzdupGo l true prev =
      (match l.dropWhile (fun c => isspace c) with
       | [] => []
       | y :: ys => y :: sqzdupGo ys false y) := by
  intro l
  induction l with
  | nil => intro prev; rfl
  | cons c cs ih =>
    intro prev
    by_cases h : isspace c
    · simpa [sqzdupGo, h, List.dropWhile_cons] using ih c
    · simp [sqzdupGo, h, List.dropWhile_cons]

theorem preSq_cons (prev c : Char) (l : List Char) :
    preSq prev (c :: l) =
      (if isspace c then
        ((c = ' ') &&
          (match l with
           | [] => isalnum prev
           | c2 :: _ => !isspace c2 && (isalnum prev || isalnum c2))) && preSq c l
      else preSq c l) := by
  cases l with
  | nil => cases hc : isspace c <;> simp [preSq, hc]
  | cons c2 cs => cases hc : isspace c <;> simp [preSq, hc, Bool.and_assoc]

theorem sqOK_cons (prev c : Char) (l : List Char) :
    sqOK prev (c :: l) =
      (if isspace c then
        ((c = ' ') &&
          (match l with
           | [] => false
           | c2 :: _ => !isspace c2 && (isalnum prev || isalnum c2))) && sqOK c l
      else sqOK c l) := by
  cases l with
  | nil => cases hc : isspace c <;> simp [sqOK, hc]
  | cons c2 cs => cases hc : isspace c <;> simp [sqOK, hc, Bool.and_assoc]

/-- Raw output of the squeeze loop satisfies `preSq`: spaces are single,
not trailing except after an alphanumeric character, and each one is
justified by the character before or after it. -/
theorem preSq_of_go :
    ∀ (n : Nat) (l : List Char) (prev : Char), l.length ≤ n →
      isspace prev = false → preSq prev (sqzdupGo l false prev) = true := by
  intro n
  induction n with
  | zero =>
    intro l prev hl _
    have : l = [] := List.eq_nil_of_length_eq_zero (Nat.le_zero.mp hl)
    subst this; rfl
  | succ n ih =>
    intro l prev hl hp
    cases l with
    | nil => rfl
    | cons c cs =>
      have hcs : cs.length ≤ n := Nat.le_of_succ_le_succ hl
      by_cases hc : isspace c
      · have hemit : ∀ h : isalnum prev = true ∨
            isalnum (firstNonSpace (c :: cs)) = true,
            sqzdupGo (c :: cs) false prev = ' ' :: sqzdupGo cs true c := by
          intro h
          rcases h with h | h
          · simp [sqzdupGo, hc, h]
          · by_cases hA : isalnum prev = true
            · simp [sqzdupGo, hc, hA]
            · simp [sqzdupGo, hc, hA, h]
        have hfns : firstNonSpace (c :: cs) = firstNonSpace cs := by
          simp [firstNonSpace, hc]
        rcases dropWhile_shape (fun x => isspace x) cs with hdw | ⟨y, ys, hdw, hy⟩
        · -- run reaches the end of the text
          have hfz : firstNonSpace (c :: cs) = '\x00' := by
            rw [hfns, firstNonSpace_eq, hdw]
          by_cases hA : isalnum prev = true
          · rw [hemit (Or.inl hA), sqzdupGo_true_skip, hdw]
            simp [preSq, hA]
          · have hB : isalnum (firstNonSpace (c :: cs)) = false := by
              rw [hfz]; decide
            have : sqzdupGo (c :: cs) false prev = sqzdupGo cs true c := by
              simp [sqzdupGo, hc, hA, hB]
            rw [this, sqzdupGo_true_skip, hdw]
            rfl
        · -- run followed by non-space y
          have hylen : ys.length ≤ n := by
            have h1 : (List.dropWhile (fun x => isspace x) cs).length ≤ cs.length :=
              dropWhile_length_le _ cs
            rw [hdw] at h1
            exact Nat.le_trans (Nat.le_of_succ_le h1) hcs
          have hfy : firstNonSpace (c :: cs) = y := by
            rw [hfns, firstNonSpace_eq, hdw]
          have htail : preSq y (sqzdupGo ys false y) = true := ih ys y hylen hy
          by_cases hA : isalnum prev = true
          · rw [hemit (Or.inl hA), sqzdupGo_true_skip, hdw]
            rw [preSq_cons]
            simp only [show isspace ' ' = true by decide, if_true]
            rw [preSq_cons]
            simp [hy, hA, htail]
          · by_cases hB : isalnum y = true
            · rw [hemit (Or.inr (by rw [hfy]; exact hB)), sqzdupGo_true_skip, hdw]
              rw [preSq_cons]
              simp only [show isspace ' ' = true by decide, if_true]
              rw [preSq_cons]
              simp [hy, hB, htail]
            · have hBf : isalnum (firstNonSpace (c :: cs)) = false := by
                rw [hfy]; simpa using hB
              have : sqzdupGo (c :: cs) false prev = sqzdupGo cs true c := by
                simp [sqzdupGo, hc, hA, hBf]
              rw [this, sqzdupGo_true_skip, hdw, preSq_cons]
              simp [hy, htail]
      · -- non-space character is copied
        have : sqzdupGo (c :: cs) false prev = c :: sqzdupGo cs false c := by
          simp [sqzdupGo, hc]
        rw [this, preSq_cons]
        simp only [hc, if_false]
        exact ih cs c hcs (by simpa using hc)

theorem trimTrailOne_cons_of_nonspace (c2 : Char) (cs2 : List Char)
    (h : isspace c2 = false) :
    ∃ ds, trimTrailOne (c2 :: cs2) = c2 :: ds := by
  cases cs2 with
  | nil => exact ⟨[], by simp [trimTrailOne, h]⟩
  | cons c3 cs3 => exact ⟨trimTrailOne (c3 :: cs3), rfl⟩

/-- Trimming the one possible trailing space turns `preSq` into `sqOK`. -/
theorem sqOK_of_trim :
    ∀ (l : List Char) (prev : Char), preSq prev l = true →
      sqOK prev (trimTrailOne l) = true := by
  intro l
  induction l with
  | nil => intro prev _; rfl
  | cons c cs ih =>
    intro prev hpre
    cases cs with
    | nil =>
      by_cases hc : isspace c
      · simp [trimTrailOne, hc, sqOK]
      · simp [trimTrailOne, hc, sqOK]
    | cons c2 cs2 =>
      rw [preSq_cons] at hpre
      show sqOK prev (c :: trimTrailOne (c2 :: cs2)) = true
      by_cases hc : isspace c
      · simp only [hc, if_true, Bool.and_eq_true] at hpre
        obtain ⟨⟨hc', h2, h3⟩, htail⟩ := hpre
        have h2' : isspace c2 = false := by simpa using h2
        have htrim := ih c htail
        obtain ⟨ds, hds⟩ := trimTrailOne_cons_of_nonspace c2 cs2 h2'
        rw [hds]
        rw [hds] at htrim
        rw [sqOK_cons]
        simp [hc, hc', h2', h3, htrim]
      · simp only [hc, if_false] at hpre
        have htrim := ih c hpre
        rw [sqOK_cons]
        simp only [hc, if_false]
        exact htrim

/-- On text already in squeezed form the squeeze loop is the identity. -/
theorem sqzdupGo_id :
    ∀ (n : Nat) (l : List Char) (prev : Char), l.length ≤ n →
      sqOK prev l = true → isspace prev = false →
      sqzdupGo l false prev = l := by
  intro n
  induction n with
  | zero =>
    intro l prev hl _ _
    have : l = [] := List.eq_nil_of_length_eq_zero (Nat.le_zero.mp hl)
    subst this; rfl
  | succ n ih =>
    intro l prev hl hok hp
    cases l with
    | nil => rfl
    | cons c cs =>
      by_cases hc : isspace c
      · cases cs with
        | nil =>
          rw [sqOK_cons] at hok
          simp [hc] at hok
        | cons c2 cs2 =>
          rw [sqOK_cons] at hok
          simp only [hc, if_true, Bool.and_eq_true] at hok
          obtain ⟨⟨hc', h2, h3⟩, htail⟩ := hok
          have hc'' : c = ' ' := of_decide_eq_true hc'
          have h2' : isspace c2 = false := by simpa using h2
          have htail2 : sqOK c2 cs2 = true := by
            rw [sqOK_cons] at htail
            simpa [h2'] using htail
          have hcs2 : cs2.length ≤ n := by
            have := hl
            simp only [List.length_cons] at this
            omega
          have hrec : sqzdupGo cs2 false c2 = cs2 := ih cs2 c2 hcs2 htail2 h2'
          have hfirst : firstNonSpace (c :: c2 :: cs2) = c2 := by
            simp [firstNonSpace, hc, h2']
          have hskip : sqzdupGo (c2 :: cs2) true c = c2 :: sqzdupGo cs2 false c2 := by
            simp [sqzdupGo, h2']
          have hcond : isalnum prev = true ∨ isalnum c2 = true := by
            simpa using h3
          subst hc''
          have e1 : isspace ' ' = true := by decide
          have e2 : isalnum ' ' = false := by decide
          rcases hcond with hA | hB
          · simp [sqzdupGo, e1, hA, h2', hrec]
          · by_cases hA : isalnum prev = true
            · simp [sqzdupGo, e1, hA, h2', hrec]
            · simp [sqzdupGo, e1, e2, hA, hB, h2', hrec, hfirst]
      · rw [sqOK_cons] at hok
        simp only [hc, if_false] at hok
        have hcs : cs.length ≤ n := Nat.le_of_succ_le_succ hl
        simp [sqzdupGo, hc, ih cs c hcs hok (by simpa using hc)]

/-- On text already in squeezed form the trailing trim is the identity. -/
theorem trimTrailOne_id :
    ∀ (l : List Char) (prev : Char), sqOK prev l = true →
      trimTrailOne l = l := by
  intro l
  induction l with
  | nil => intro prev _; rfl
  | cons c cs ih =>
    intro prev hok
    rw [sqOK_cons] at hok
    cases cs with
    | nil =>
      by_cases hc : isspace c
      · simp [hc] at hok
      · simp [trimTrailOne, hc]
    | cons c2 cs2 =>
      have htail : sqOK c (c2 :: cs2) = true := by
        by_cases hc : isspace c
        · simp only [hc, if_true] at hok
          rw [Bool.and_eq_true] at hok
          exact hok.2
        · simpa [hc] using hok
      rw [show trimTrailOne (c :: c2 :: cs2) = c :: trimTrailOne (c2 :: cs2) from rfl,
        ih c htail]

/-- The squeezer's output never starts with whitespace. -/
theorem sqzdup_head_nonspace (s : List Char) :
    ∀ c cs, sqzdup s = c :: cs → isspace c = false := by
  intro c cs h
  unfold sqzdup at h
  rcases dropWhile_shape (fun x => isspace x) s with hdw | ⟨y, ys, hdw, hy⟩
  · rw [hdw] at h; simp [sqzdupGo, trimTrailOne] at h
  · rw [hdw] at h
    rw [show sqzdupGo (y :: ys) false '\x00' = y :: sqzdupGo ys false y by
      simp [sqzdupGo, hy]] at h
    cases hgo : sqzdupGo ys false y with
    | nil =>
      rw [hgo] at h
      simp only [trimTrailOne, hy, Bool.not_eq_true] at h
      cases h; simpa using hy
    | cons d ds =>
      rw [hgo] at h
      rw [show trimTrailOne (y :: d :: ds) = y :: trimTrailOne (d :: ds) from rfl] at h
      cases h; simpa using hy

/-- The squeezer's output is in squeezed form. -/
theorem sqzdup_sqOK (s : List Char) : sqOK '\x00' (sqzdup s) = true := by
  unfold sqzdup
  exact sqOK_of_trim _ _
    (preSq_of_go (s.dropWhile (fun c => isspace c)).length _ '\x00'
      (Nat.le_refl _) (by decide))

/-- Idempotence of the squeezer. -/
theorem sqzdup_idem (s : List Char) : sqzdup (sqzdup s) = sqzdup s := by
  have hok := sqzdup_sqOK s
  have hdw : (sqzdup s).dropWhile (fun c => isspace c) = sqzdup s := by
    cases hs : sqzdup s with
    | nil => rfl
    | cons c cs =>
      have := sqzdup_head_nonspace s c cs hs
      simp [List.dropWhile_cons, this]
  conv_lhs => rw [sqzdup]
  rw [hdw]
  rw [sqzdupGo_id (sqzdup s).length (sqzdup s) '\x00' (Nat.le_refl _) hok (by decide)]
  exact trimTrailOne_id _ '\x00' hok

/-- C2, counterexample: on the input "a ." the code keeps the interior
whitespace run (the character before it is alphanumeric) even though the
first non-whitespace character after it is not alphanumeric, while the
claim's AND-condition drops the run.  So the claim's condition is not
the one the code implements. -/
theorem c2_counterexample :
    sqzdup "a .".toList = "a .".toList ∧
    sqzdupSpecAnd "a .".toList = "a.".toList ∧
    sqzdup "a .".toList ≠ sqzdupSpecAnd "a .".toList :=
  ⟨by decide, by decide, by decide⟩

/-- C2, amended: a whitespace run collapses to a single space when the
character immediately before the run is alphanumeric, or, failing that,
when the first non-whitespace character after the run is alphanumeric;
otherwise the run is dropped; trailing whitespace is removed. -/
theorem c2_squeeze_amended : ∀ s : List Char, sqzdup s = sqzdupSpecOr s :=
  fun s => sqzdup_eq_specOr s

/-- C8: the squeeze transform is idempotent. -/
theorem c8_squeeze_idem : ∀ x : List Char, sqzdup (sqzdup x) = sqzdup x :=
  fun x => sqzdup_idem x

/-- C1, counterexample: converting "1. first\n5. second\n" in the man
dialect renders the second item with its literal counter 5, not with the
sequential counter 2 the claim predicts. -/
theorem c1_counterexample :
    isOkB (md2roff .mp_man "doc".toList 2024 1 2
      "1. first\n5. second\n".toList) = true ∧
    occursIn ".IP 1. 4\n".toList
      (outOf (md2roff .mp_man "doc".toList 2024 1 2
        "1. first\n5. second\n".toList)) = true ∧
    occursIn ".IP 5. 4\n".toList
      (outOf (md2roff .mp_man "doc".toList 2024 1 2
        "1. first\n5. second\n".toList)) = true ∧
    occursIn ".IP 2. 4".toList
      (outOf (md2roff .mp_man "doc".toList 2024 1 2
        "1. first\n5. second\n".toList)) = false :=
  ⟨by decide, by decide, by decide, by decide⟩

/-- C1, amended: every ordered-list marker's literal numeric value is
assigned to the open list's counter (not only the first marker of a
freshly opened list), so in the man dialect each item renders its own
literal number — "1. first\n5. second\n" renders counter 1 then
counter 5.  Stated for the ordered-item branch: whether the stack is
empty (fresh list) or already holds an ordered frame with any count
`cnt`, the emitted item label uses this marker's value `atoiDec num`
and the stored counter becomes `atoiDec num + 1`. -/
theorem c1_ordered_counter_amended :
    ∀ (st : St) (num r2 : List Char) (cnt : Int) (fs : List LFrame),
      (st.stk = [] →
        olCase .mp_man st num r2 =
          .go { st with
                buf := [],
                out := st.out ++ flushln st.buf ++ ".IP ".toList ++
                  intDec (atoiDec num) ++ ". 4\n".toList,
                stk := [⟨.ol, atoiDec num + 1⟩],
                prev := lastD (r2.takeWhile (fun c => c = ' ' || c = '\t')) '.' }
            (r2.dropWhile (fun c => c = ' ' || c = '\t'))) ∧
      (st.stk = ⟨.ol, cnt⟩ :: fs →
        olCase .mp_man st num r2 =
          .go { st with
                buf := [],
                out := st.out ++ flushln st.buf ++ ".IP ".toList ++
                  intDec (atoiDec num) ++ ". 4\n".toList,
                stk := ⟨.ol, atoiDec num + 1⟩ :: fs,
                prev := lastD (r2.takeWhile (fun c => c = ' ' || c = '\t')) '.' }
            (r2.dropWhile (fun c => c = ' ' || c = '\t'))) := by
  intro st num r2 cnt fs
  constructor
  · intro h
    simp [olCase, flushSt, roff, setTop, h, List.append_assoc]
  · intro h
    simp [olCase, flushSt, roff, setTop, h, List.append_assoc]

/-- C1, witness for the amended theorem at a concrete state: a fresh
marker 7 renders the literal label 7 and stores counter 8. -/
theorem c1_ordered_counter_amended_witness :
    olCase .mp_man (initSt [] ' ') "7".toList " x".toList =
      .go { initSt [] ' ' with
            buf := [],
            out := ".IP 7. 4\n".toList,
            stk := [⟨.ol, 8⟩],
            prev := ' ' } "x".toList := by
  have h := (c1_ordered_counter_amended (initSt [] ' ') "7".toList " x".toList 0 []).1 rfl
  rw [h]
  decide

/-- C3, counterexample: in the mm dialect no header directive is emitted
at all — converting "hello\n" with document name "doc" on 2024-01-02
yields an output containing neither the name nor the date, contradicting
the claim's "for every dialect" synthesis; and in the mom dialect the
title is always built from the document name, even when the first line
begins with "# ". -/
theorem c3_counterexample :
    outOf (md2roff .mp_mm "zz".toList 2024 1 2 "hello\n".toList) =
      ".\\\" x-roff document\n.do mso m.tmac\nhello\n".toList ∧
    occursIn "zz".toList
      (outOf (md2roff .mp_mm "zz".toList 2024 1 2 "hello\n".toList)) = false ∧
    occursIn "2024".toList
      (outOf (md2roff .mp_mm "zz".toList 2024 1 2 "hello\n".toList)) = false ∧
    occursIn ".TITLE \"zz\"".toList
      (outOf (md2roff .mp_mom "zz".toList 2024 1 2 "# T\nx\n".toList)) = true ∧
    occursIn ".TH".toList
      (outOf (md2roff .mp_mom "zz".toList 2024 1 2 "# T\nx\n".toList)) = false :=
  ⟨by decide, by decide, by decide, by decide, by decide⟩

/-- C3, amended: only the man and mdoc dialects emit a header directive
derived from the document: taken from the first line when it starts with
`#` followed by a whitespace character (the rest of that line becomes
the `.TH` arguments), otherwise synthesized as
`.TH name 7 YYYY-MM-DD document` from the document name and clock date.
The mm dialect emits no header directive (only the package activation),
and the mom dialect always emits a title built from the document name
alone, with no date. -/
theorem c3_header_amended :
    ∀ (nm : List Char) (y m d : Nat) (src : List Char),
      (preamble .mp_mm nm y m d src =
        (xroffLn ++ ".do mso m.tmac\n".toList, src, ' ')) ∧
      (preamble .mp_mom nm y m d src =
        (xroffLn ++ ".do mso mom.tmac\n.TITLE \"".toList ++ nm ++
         "\"\n.AUTHOR \"md2roff\"\n.PAPER A4\n.PRINTSTYLE TYPESET\n.START\n".toList,
         src, ' ')) ∧
      (∀ c r, src = '#' :: c :: r → isspace c = true →
        preamble .mp_man nm y m d src =
          (xroffLn ++ ".do mso man.tmac\n".toList ++ ".TH ".toList ++
           (printlnSplit r).1, (printlnSplit r).2, lastD (printlnSplit r).1 c)) ∧
      (∀ c r, src = '#' :: c :: r → isspace c = true →
        preamble .mp_mdoc nm y m d src =
          (xroffLn ++ ".do mso mdoc.tmac\n".toList ++ ".TH ".toList ++
           (printlnSplit r).1, (printlnSplit r).2, lastD (printlnSplit r).1 c)) ∧
      (¬(src.headD '\x00' = '#' ∧ isspace ((src.drop 1).headD '\x00') = true) →
        preamble .mp_man nm y m d src =
          (xroffLn ++ ".do mso man.tmac\n".toList ++ ".TH ".toList ++ nm ++
           " 7 ".toList ++ dateStr y m d ++ " document\n".toList, src, ' ')) ∧
      (¬(src.headD '\x00' = '#' ∧ isspace ((src.drop 1).headD '\x00') = true) →
        preamble .mp_mdoc nm y m d src =
          (xroffLn ++ ".do mso mdoc.tmac\n".toList ++ ".TH ".toList ++ nm ++
           " 7 ".toList ++ dateStr y m d ++ " document\n".toList, src, ' ')) := by
  intro nm y m d src
  refine ⟨rfl, rfl, ?_, ?_, ?_, ?_⟩
  · intro c r h hc
    subst h
    simp [preamble, hc, List.append_assoc]
  · intro c r h hc
    subst h
    simp [preamble, hc, List.append_assoc]
  · intro h
    rcases src with _ | ⟨c0, _ | ⟨c1, r⟩⟩
    · simp [preamble]
    · simp [preamble, show isspace '\x00' = false by decide]
    · simp only [List.headD_cons, List.drop_one, List.tail_cons] at h
      by_cases h0 : c0 = '#'
      · subst h0
        have h1 : isspace c1 = false := by
          rcases Bool.eq_false_or_eq_true (isspace c1) with hh | hh
          · exact absurd ⟨rfl, hh⟩ h
          · exact hh
        simp [preamble, h1, List.append_assoc]
      · simp [preamble, h0, List.append_assoc]
  · intro h
    rcases src with _ | ⟨c0, _ | ⟨c1, r⟩⟩
    · simp [preamble]
    · simp [preamble, show isspace '\x00' = false by decide]
    · simp only [List.headD_cons, List.drop_one, List.tail_cons] at h
      by_cases h0 : c0 = '#'
      · subst h0
        have h1 : isspace c1 = false := by
          rcases Bool.eq_false_or_eq_true (isspace c1) with hh | hh
          · exact absurd ⟨rfl, hh⟩ h
          · exact hh
        simp [preamble, h1, List.append_assoc]
      · simp [preamble, h0, List.append_assoc]

/-- C3, witness: the amended header behaviour at concrete inputs —
man dialect with a "# NAME 1\n" first line, and mdoc dialect with a
plain first line on 2024-01-02. -/
theorem c3_header_amended_witness :
    preamble .mp_man "doc".toList 2024 1 2 "# NAME 1\nrest".toList =
      (".\\\" x-roff document\n.do mso man.tmac\n.TH NAME 1\n".toList,
       "rest".toList, '\n') ∧
    preamble .mp_mdoc "doc".toList 2024 1 2 "plain\n".toList =
      (".\\\" x-roff document\n.do mso mdoc.tmac\n.TH doc 7 2024-01-02 document\n".toList,
       "plain\n".toList, ' ') := by
  constructor
  · have h := (c3_header_amended "doc".toList 2024 1 2 "# NAME 1\nrest".toList).2.2.1
      ' ' "NAME 1\nrest".toList rfl (by decide)
    rw [h]
    decide
  · have h := (c3_header_amended "doc".toList 2024 1 2 "plain\n".toList).2.2.2.2.2
      (by decide)
    rw [h]
    decide

/-- C4, counterexample: a rule line may carry trailing text — on
"ab\n===x\nrest\n" the line "===x" is not followed by exactly a newline
after the delimiter, yet the code still treats it as a setext rule and
emits ".SH ab"; the claim says such a line is not a setext header. -/
theorem c4_counterexample :
    isOkB (md2roff .mp_man "zz".toList 2024 1 2 "ab\n===x\nrest\n".toList) = true ∧
    occursIn ".SH ab\n".toList
      (outOf (md2roff .mp_man "zz".toList 2024 1 2 "ab\n===x\nrest\n".toList)) =
      true :=
  ⟨by decide, by decide⟩

/-- C4, amended: a newline followed by one of the delimiters ===, ---,
*** starts a setext rule whatever follows the delimiter; the rule line
extends to the next newline, and everything on it is discarded.  With a
non-empty pending buffer, the previous buffered line — the text after
the buffer's last embedded newline — becomes the title of a major
section header, and any buffer text before that newline is written out
raw first; when the buffer holds no embedded newline the whole buffer,
squeezed, is the title.  With an empty buffer the rule line is skipped
without emitting a header; and when no newline terminates the rule
line, the transducer returns at once, keeping only the output emitted
so far. -/
theorem c4_setext_amended :
    ∀ (mp : Mpack) (st : St) (cs a b pre tl : List Char),
      (isRule3 cs = true → chrSplit '\n' cs = none →
        inl mp st ('\n' :: cs) = .ret st.out) ∧
      (isRule3 cs = true → chrSplit '\n' cs = some (a, b) → st.buf = [] →
        inl mp st ('\n' :: cs) = .cont { st with prev := '\n' } b) ∧
      (isRule3 cs = true → chrSplit '\n' cs = some (a, b) → st.buf ≠ [] →
        lastNlSplit (cstr st.buf) = none →
        inl mp st ('\n' :: cs) =
          .cont { st with buf := [],
                          out := st.out ++ (roff mp st.stk .new_sh).1 ++
                            flushln st.buf,
                          prev := '\n' } b) ∧
      (isRule3 cs = true → chrSplit '\n' cs = some (a, b) → st.buf ≠ [] →
        lastNlSplit (cstr st.buf) = some (pre, tl) →
        inl mp st ('\n' :: cs) =
          .cont { st with buf := [],
                          out := st.out ++
                            (if pre.isEmpty then [] else pre ++ ['\n']) ++
                            (roff mp st.stk .new_sh).1 ++ tl ++ ['\n'],
                          prev := '\n' } b) := by
  intro mp st cs a b pre tl
  refine ⟨?_, ?_, ?_, ?_⟩
  · intro h1 h2
    simp [inl, h1, h2]
  · intro h1 h2 h3
    simp [inl, h1, h2, h3]
  · intro h1 h2 h3 h4
    simp [inl, h1, h2, h3, h4]
  · intro h1 h2 h3 h4
    simp [inl, h1, h2, h3, h4]

/-- C4, witness: a concrete rule line "===x" with pending text "ab"
emits the section header and discards the rule line; with pending text
"a\nb" holding an embedded newline, the pre-part "a" is written raw and
only the last buffered line "b" becomes the header title. -/
theorem c4_setext_amended_witness :
    inl .mp_man { buf := "ab".toList, out := [], bline := false,
                  bcode := false, bold := false, italics := false,
                  stk := [], prev := 'b' } ('\n' :: "===x\nq".toList) =
      .cont { buf := [], out := ".SH ab\n".toList, bline := false,
              bcode := false, bold := false, italics := false,
              stk := [], prev := '\n' } "q".toList ∧
    inl .mp_man { buf := "a\nb".toList, out := [], bline := false,
                  bcode := false, bold := false, italics := false,
                  stk := [], prev := 'b' } ('\n' :: "===\nq".toList) =
      .cont { buf := [], out := "a\n.SH b\n".toList, bline := false,
              bcode := false, bold := false, italics := false,
              stk := [], prev := '\n' } "q".toList := by
  constructor
  · have h := (c4_setext_amended .mp_man
      { buf := "ab".toList, out := [], bline := false, bcode := false,
        bold := false, italics := false, stk := [], prev := 'b' }
      "===x\nq".toList "===x".toList "q".toList [] []).2.2.1
      (by decide) (by decide) (by decide) (by decide)
    rw [h]
    decide
  · have h := (c4_setext_amended .mp_man
      { buf := "a\nb".toList, out := [], bline := false, bcode := false,
        bold := false, italics := false, stk := [], prev := 'b' }
      "===\nq".toList "===".toList "q".toList "a".toList "b".toList).2.2.2
      (by decide) (by decide) (by decide) (by decide)
    rw [h]
    decide

theorem chrSplit_not_mem {t : Char} :
    ∀ l : List Char, t ∉ l → chrSplit t l = none := by
  intro l
  induction l with
  | nil => intro _; rfl
  | cons c cs ih =>
    intro h
    have hc : ¬c = t := fun hh => h (hh ▸ List.mem_cons_self c cs)
    have hcs : t ∉ cs := fun hh => h (List.mem_cons_of_mem c hh)
    simp [chrSplit, hc, ih hcs]

theorem chrSplit_app {t : Char} :
    ∀ a b : List Char, t ∉ a → chrSplit t (a ++ t :: b) = some (a, b) := by
  intro a
  induction a with
  | nil => intro b _; simp [chrSplit]
  | cons c cs ih =>
    intro b h
    have hc : ¬c = t := fun hh => h (hh ▸ List.mem_cons_self c cs)
    have hcs : t ∉ cs := fun hh => h (List.mem_cons_of_mem c hh)
    simp [chrSplit, hc, ih b hcs]

theorem takeWhile_app_all (p : Char → Bool) :
    ∀ xs rest : List Char, (∀ x ∈ xs, p x = true) →
      (xs ++ rest).takeWhile p = xs ++ rest.takeWhile p := by
  intro xs
  induction xs with
  | nil => intro rest _; rfl
  | cons c cs ih =>
    intro rest h
    have hc : p c = true := h c (List.mem_cons_self c cs)
    simp only [List.cons_append, List.takeWhile_cons, hc, if_true]
    rw [ih rest (fun x hx => h x (List.mem_cons_of_mem c hx))]

theorem dropWhile_app_all (p : Char → Bool) :
    ∀ xs rest : List Char, (∀ x ∈ xs, p x = true) →
      (xs ++ rest).dropWhile p = rest.dropWhile p := by
  intro xs
  induction xs with
  | nil => intro rest _; rfl
  | cons c cs ih =>
    intro rest h
    have hc : p c = true := h c (List.mem_cons_self c cs)
    simp only [List.cons_append, List.dropWhile_cons, hc, if_true]
    exact ih rest (fun x hx => h x (List.mem_cons_of_mem c hx))

theorem takeWhile_app_stop (p : Char → Bool) (xs : List Char) (y : Char)
    (ys : List Char) (hxs : ∀ x ∈ xs, p x = true) (hy : p y = false) :
    (xs ++ y :: ys).takeWhile p = xs := by
  rw [takeWhile_app_all p xs (y :: ys) hxs]
  simp [List.takeWhile_cons, hy]

theorem dropWhile_app_stop (p : Char → Bool) (xs : List Char) (y : Char)
    (ys : List Char) (hxs : ∀ x ∈ xs, p x = true) (hy : p y = false) :
    (xs ++ y :: ys).dropWhile p = y :: ys := by
  rw [dropWhile_app_all p xs (y :: ys) hxs]
  simp [List.dropWhile_cons, hy]

theorem getLast?_app_ne (l₁ l₂ : List Char) (h : l₂ ≠ []) :
    (l₁ ++ l₂).getLast? = l₂.getLast? := by
  induction l₁ with
  | nil => rfl
  | cons c cs ih =>
    have hne : cs ++ l₂ ≠ [] := fun hc => h (List.append_eq_nil.mp hc).2
    rcases List.exists_cons_of_ne_nil hne with ⟨d, ds, hds⟩
    rw [List.cons_append, hds, List.getLast?_cons_cons, ← hds, ih]

/-- C5: for a `#`-run header line of `lvl` hashes (not ending in a
trailing `#`), optional spaces/tabs, a title, and a terminating newline:
levels 1 and 2 emit the major-section event (`new_sh`), level 3 the
minor-section event (`new_ss`), and level 4 or more the generic
sub-section event (`new_s4`) — except in the man dialect, where a
level-4-or-more header instead renders as an inline bold run-in label
`.TP` + bold title, not as a new section. -/
theorem c5_header_levels :
    ∀ (mp : Mpack) (st : St) (lvl : Nat) (sp : List Char) (t0 : Char)
      (tl b rest : List Char),
      1 ≤ lvl →
      (∀ c ∈ sp, c = ' ' ∨ c = '\t') →
      t0 ≠ '#' → t0 ≠ ' ' → t0 ≠ '\t' →
      '\n' ∉ t0 :: tl →
      (t0 :: tl).getLast? ≠ some '#' →
      rest = List.replicate lvl '#' ++ (sp ++ (t0 :: (tl ++ '\n' :: b))) →
      (lvl ≤ 2 →
        headerCase mp st rest =
          .fall { st with out := st.out ++ (roff mp st.stk .new_sh).1 ++
                            (t0 :: tl) ++ ['\n'],
                          prev := '\n' } b) ∧
      (lvl = 3 →
        headerCase mp st rest =
          .fall { st with out := st.out ++ (roff mp st.stk .new_ss).1 ++
                            (t0 :: tl) ++ ['\n'],
                          prev := '\n' } b) ∧
      (4 ≤ lvl → mp = .mp_man →
        headerCase mp st rest =
          .go { st with out := st.out ++ ".TP\n\\fB".toList ++ (t0 :: tl) ++
                          '\n' :: "\\fR".toList,
                        prev := '\n' } b) ∧
      (4 ≤ lvl → mp ≠ .mp_man →
        headerCase mp st rest =
          .go { st with out := st.out ++ (roff mp st.stk .new_s4).1,
                        prev := lastD sp '#' } (t0 :: (tl ++ '\n' :: b))) := by
  intro mp st lvl sp t0 tl b rest hlvl hsp ht0h ht0s ht0t hnl hlast hrest
  subst hrest
  have hrepl : ∀ x ∈ List.replicate lvl '#', (fun c => (c = '#' : Bool)) x = true := by
    intro x hx
    rcases List.eq_of_mem_replicate hx with rfl
    simp
  have hna : ('\n' : Char) ∉
      List.replicate lvl '#' ++ (sp ++ (t0 :: tl)) := by
    intro hmem
    rcases List.mem_append.mp hmem with hm | hm
    · rcases List.eq_of_mem_replicate hm with h
      exact absurd h (by decide)
    · rcases List.mem_append.mp hm with hm2 | hm2
      · rcases hsp _ hm2 with h | h <;> exact absurd h (by decide)
      · exact hnl hm2
  have hsplit : chrSplit '\n'
      (List.replicate lvl '#' ++ (sp ++ (t0 :: (tl ++ '\n' :: b)))) =
      some (List.replicate lvl '#' ++ (sp ++ (t0 :: tl)), b) := by
    rw [show List.replicate lvl '#' ++ (sp ++ (t0 :: (tl ++ '\n' :: b))) =
        (List.replicate lvl '#' ++ (sp ++ (t0 :: tl))) ++ '\n' :: b by
      simp [List.append_assoc]]
    exact chrSplit_app _ _ hna
  have hgl : (List.replicate lvl '#' ++ (sp ++ (t0 :: tl))).getLast? =
      (t0 :: tl).getLast? := by
    rw [show List.replicate lvl '#' ++ (sp ++ (t0 :: tl)) =
        (List.replicate lvl '#' ++ sp) ++ (t0 :: tl) by simp [List.append_assoc]]
    exact getLast?_app_ne _ _ (by simp)
  have hlD : lastD (List.replicate lvl '#' ++ (sp ++ (t0 :: tl))) '#' ≠ '#' := by
    unfold lastD
    rw [hgl]
    cases hg : (t0 :: tl).getLast? with
    | none => simp [List.getLast?_eq_none_iff] at hg
    | some x =>
      intro hx
      rw [Option.getD_some] at hx
      exact hlast (hx ▸ hg)
  have htw0 : (sp ++ (t0 :: (tl ++ '\n' :: b))).takeWhile
      (fun c => (c = '#' : Bool)) = [] := by
    cases sp with
    | nil => simp [List.takeWhile_cons, ht0h]
    | cons s0 sp' =>
      rcases hsp s0 (List.mem_cons_self s0 sp') with h | h <;>
        simp [List.cons_append, List.takeWhile_cons, h]
  have htake : (List.replicate lvl '#' ++
      (sp ++ (t0 :: (tl ++ '\n' :: b)))).takeWhile
      (fun c => (c = '#' : Bool)) = List.replicate lvl '#' := by
    rw [takeWhile_app_all _ _ _ hrepl, htw0, List.append_nil]
  have hdw0 : (sp ++ (t0 :: (tl ++ '\n' :: b))).dropWhile
      (fun c => (c = '#' : Bool)) = sp ++ (t0 :: (tl ++ '\n' :: b)) := by
    cases sp with
    | nil => simp [List.dropWhile_cons, ht0h]
    | cons s0 sp' =>
      rcases hsp s0 (List.mem_cons_self s0 sp') with h | h <;>
        simp [List.cons_append, List.dropWhile_cons, h]
  have hdrop : (List.replicate lvl '#' ++
      (sp ++ (t0 :: (tl ++ '\n' :: b)))).dropWhile
      (fun c => (c = '#' : Bool)) = sp ++ (t0 :: (tl ++ '\n' :: b)) := by
    rw [dropWhile_app_all _ _ _ hrepl, hdw0]
  have hspall : ∀ x ∈ sp, (fun c => (c = ' ' || c = '\t' : Bool)) x = true := by
    intro x hx
    rcases hsp x hx with h | h <;> simp [h]
  have ht0st : (fun c => (c = ' ' || c = '\t' : Bool)) t0 = false := by
    simp [ht0s, ht0t]
  have hdw2 : (sp ++ (t0 :: (tl ++ '\n' :: b))).dropWhile
      (fun c => (c = ' ' || c = '\t' : Bool)) = t0 :: (tl ++ '\n' :: b) :=
    dropWhile_app_stop _ _ _ _ hspall ht0st
  have htw2 : (sp ++ (t0 :: (tl ++ '\n' :: b))).takeWhile
      (fun c => (c = ' ' || c = '\t' : Bool)) = sp :=
    takeWhile_app_stop _ _ _ _ hspall ht0st
  have hprt : printlnSplit (t0 :: (tl ++ '\n' :: b)) =
      ((t0 :: tl) ++ ['\n'], b) := by
    unfold printlnSplit
    rw [show t0 :: (tl ++ '\n' :: b) = (t0 :: tl) ++ '\n' :: b from rfl,
      chrSplit_app _ _ hnl]
  have hlvl_len : (List.replicate lvl '#').length = lvl := List.length_replicate _ _
  have hlastln : (t0 :: (tl ++ ['\n'])).getLast?.getD st.prev = '\n' := by
    rw [show t0 :: (tl ++ ['\n']) = (t0 :: tl) ++ ['\n'] from rfl,
      getLast?_app_ne _ _ (by simp)]
    rfl
  refine ⟨?_, ?_, ?_, ?_⟩
  · intro h12
    have h12' : lvl = 1 ∨ lvl = 2 := by omega
    simp only [headerCase, hsplit, if_neg hlD,
      htake, hdrop, hdw2, hprt, hlvl_len]
    rcases h12' with h | h <;>
      simp [h, lastD, List.append_assoc, hlastln]
  · intro h3
    simp only [headerCase, hsplit, if_neg hlD,
      htake, hdrop, hdw2, hprt, hlvl_len]
    simp [h3, lastD, List.append_assoc, hlastln]
  · intro h4 hman
    subst hman
    have hne3 : lvl ≠ 3 := by omega
    simp only [headerCase, hsplit, if_neg hlD,
      htake, hdrop, hdw2, hprt, hlvl_len]
    simp [hne3, (by omega : ¬lvl = 1), (by omega : ¬lvl = 2), lastD,
      List.append_assoc, hlastln]
    exact ⟨by omega, by omega⟩
  · intro h4 hman
    have hne3 : lvl ≠ 3 := by omega
    simp only [headerCase, hsplit, if_neg hlD,
      htake, hdrop, hdw2, htw2, hprt, hlvl_len]
    simp [hman, hne3, (by omega : ¬lvl = 1), (by omega : ¬lvl = 2),
      List.append_assoc]
    exact ⟨by omega, by omega⟩

/-- C5, witness: the concrete level-4 header line "#### Tx" renders as a
generic sub-section in the mm dialect and as a `.TP` bold run-in label
in the man dialect. -/
theorem c5_header_levels_witness :
    headerCase .mp_mm (initSt [] ' ') "#### Tx\nq".toList =
      .go { initSt [] ' ' with out := ".SS ".toList, prev := ' ' }
        "Tx\nq".toList ∧
    headerCase .mp_man (initSt [] ' ') "#### Tx\nq".toList =
      .go { initSt [] ' ' with out := ".TP\n\\fBTx\n\\fR".toList, prev := '\n' }
        "q".toList := by
  constructor
  · have h := (c5_header_levels .mp_mm (initSt [] ' ') 4 [' '] 'T' "x".toList
      "q".toList "#### Tx\nq".toList (by decide) (by decide) (by decide)
      (by decide) (by decide) (by decide) (by decide) (by decide)).2.2.2
      (by decide) (by decide)
    rw [h]
    decide
  · have h := (c5_header_levels .mp_man (initSt [] ' ') 4 [' '] 'T' "x".toList
      "q".toList "#### Tx\nq".toList (by decide) (by decide) (by decide)
      (by decide) (by decide) (by decide) (by decide) (by decide)).2.2.1
      (by decide) rfl
    rw [h]
    decide

theorem inl_bt_fatal (mp : Mpack) (st : St) (cs : List Char) (h : bt ∉ cs) :
    inl mp st (bt :: cs) = .fatal st.out := by
  simp [inl, (by decide : ¬(bt = '\n')), (by decide : ¬(bt = '*')),
    (by decide : ¬(bt = '_')), (by decide : ¬(bt = '[')),
    (by decide : ¬(bt = '!')), chrSplit_not_mem _ h]

theorem inl_bt_closed (mp : Mpack) (st : St) (content rest : List Char)
    (h : bt ∉ content) :
    inl mp st (bt :: (content ++ bt :: rest)) =
      .cont { st with buf := st.buf ++ codeOpen mp ++ content ++ codeClose mp,
                      prev := bt } rest := by
  simp [inl, (by decide : ¬(bt = '\n')), (by decide : ¬(bt = '*')),
    (by decide : ¬(bt = '_')), (by decide : ¬(bt = '[')),
    (by decide : ¬(bt = '!')), chrSplit_app _ _ h]

/-- C6: a backtick in normal mid-line context opens an inline code span;
when no closing backtick remains in the input the transform fails
fatally (modelled `.error`, i.e. `exit(EXIT_FAILURE)` after the stderr
diagnostic), and the main loop propagates it as the final result; when
the span closes, its contents are copied verbatim (between the dialect's
code markup) into the pending buffer and scanning continues after the
closing backtick.  The closed conjuncts run a whole document through
`md2roff`: the unterminated one errors, the terminated one succeeds. -/
theorem c6_unterminated_code :
    (∀ (mp : Mpack) (st : St) (cs : List Char), bt ∉ cs →
      inl mp st (bt :: cs) = .fatal st.out) ∧
    (∀ (mp : Mpack) (st : St) (content rest : List Char), bt ∉ content →
      inl mp st (bt :: (content ++ bt :: rest)) =
        .cont { st with buf := st.buf ++ codeOpen mp ++ content ++ codeClose mp,
                        prev := bt } rest) ∧
    (∀ (mp : Mpack) (st : St) (cs : List Char) (n : Nat),
      st.bcode = false → st.bline = false → bt ∉ cs →
      md2roffGo mp (n + 1) st (bt :: cs) = .error st.out) ∧
    (md2roff .mp_man "zz".toList 2024 1 2 "a \x60bc".toList =
      .error ".\\\" x-roff document\n.do mso man.tmac\n.TH zz 7 2024-01-02 document\n".toList) ∧
    (md2roff .mp_man "zz".toList 2024 1 2 "a \x60b\x60 c\n".toList =
      .ok ".\\\" x-roff document\n.do mso man.tmac\n.TH zz 7 2024-01-02 document\na \x60\\f[CR]b\\fP\x27 c\n".toList) := by
  refine ⟨inl_bt_fatal, inl_bt_closed, ?_, by rfl, by rfl⟩
  intro mp st cs n hbc hbl h
  simp [md2roffGo, hbc, hbl, (by decide : ¬(bt = '\\')), inl_bt_fatal mp st cs h]

/-- C6, witness: the handler conjuncts applied at a concrete state and
input. -/
theorem c6_unterminated_code_witness :
    inl .mp_man (initSt [] ' ') (bt :: "abc".toList) = .fatal [] ∧
    md2roffGo .mp_man 5 { initSt "o".toList 'x' with bline := false }
      (bt :: "abc".toList) = .error "o".toList := by
  constructor
  · exact c6_unterminated_code.1 .mp_man (initSt [] ' ') "abc".toList (by decide)
  · exact c6_unterminated_code.2.2.1 .mp_man
      { initSt "o".toList 'x' with bline := false } "abc".toList 4
      rfl rfl (by decide)

/-- C7, counterexample: on "ab\n===" the transducer hits a setext rule
whose line has no terminating newline and returns early without any
fatal error — the pending text "ab" is silently discarded, never
flushed, contradicting the claim that every non-fatal run flushes the
trailing buffer. -/
theorem c7_counterexample :
    isOkB (md2roff .mp_man "zz".toList 2024 1 2 "ab\n===".toList) = true ∧
    outOf (md2roff .mp_man "zz".toList 2024 1 2 "ab\n===".toList) =
      ".\\\" x-roff document\n.do mso man.tmac\n.TH zz 7 2024-01-02 document\n".toList ∧
    occursIn "ab".toList
      (outOf (md2roff .mp_man "zz".toList 2024 1 2 "ab\n===".toList)) = false :=
  ⟨by decide, by decide, by decide⟩

/-- C7, amended: when the scan loop reaches the end of the input it
flushes the pending buffer through the squeezer and appends it to the
output (first conjunct: the loop's base case), except on one early exit
path — a newline followed by a rule delimiter whose line never ends in
a newline makes the transducer return at once, discarding the pending
buffer (second conjunct). -/
theorem c7_final_flush_amended :
    (∀ (mp : Mpack) (n : Nat) (st : St),
      md2roffGo mp (n + 1) st [] = .ok (st.out ++ flushln st.buf)) ∧
    (∀ (mp : Mpack) (n : Nat) (st : St) (cs : List Char),
      st.bcode = false → st.bline = false → isRule3 cs = true →
      chrSplit '\n' cs = none →
      md2roffGo mp (n + 1) st ('\n' :: cs) = .ok st.out) := by
  constructor
  · intro mp n st
    rfl
  · intro mp n st cs hbc hbl hr hsplit
    simp [md2roffGo, hbc, hbl, (by decide : ¬('\n' = '\\')), inl, hr, hsplit]

/-- C7, witness: the amended behaviour at concrete states — a final
flush of pending text "x", and the early return on a dangling rule. -/
theorem c7_final_flush_amended_witness :
    md2roffGo .mp_man 3 { initSt "o\n".toList 'x' with buf := " x ".toList } [] =
      .ok "o\nx\n".toList ∧
    md2roffGo .mp_man 3
      { initSt "o\n".toList 'x' with buf := "ab".toList, bline := false }
      ('\n' :: "---".toList) = .ok "o\n".toList := by
  constructor
  · have h := c7_final_flush_amended.1 .mp_man 2
      { initSt "o\n".toList 'x' with buf := " x ".toList }
    rw [h]
    rfl
  · have h := c7_final_flush_amended.2 .mp_man 2
      { initSt "o\n".toList 'x' with buf := "ab".toList, bline := false }
      "---".toList rfl rfl (by decide) (by decide)
    rw [h]
    rfl

/-- C10: when the link tail fails to parse (no `]` immediately followed
by `(` with a later `)`), an image marker `![` appends only the `[` to
the pending text — the `!` is silently dropped — and scanning resumes at
the character after the `[`; a plain `[` that fails to parse is copied
literally and scanning continues at the next character. -/
theorem c10_link_fallback :
    ∀ (mp : Mpack) (st : St) (cs : List Char),
      linkParse cs = none →
      (inl mp st ('!' :: '[' :: cs) =
        .cont { st with buf := st.buf ++ ['['], prev := '[' } cs) ∧
      (inl mp st ('[' :: cs) =
        .cont { st with buf := st.buf ++ ['['], prev := '[' } cs) := by
  intro mp st cs h
  constructor
  · simp [inl, h, (by decide : ¬('!' = bt)), (by decide : ¬('[' = bt))]
  · simp [inl, h, (by decide : ¬('[' = bt))]

/-- C10, witness: a concrete unparseable tail "xx" — the image marker
drops the `!`, the plain bracket copies itself. -/
theorem c10_link_fallback_witness :
    inl .mp_man (initSt [] ' ') ('!' :: '[' :: "xx".toList) =
      .cont { initSt [] ' ' with buf := ['['], prev := '[' } "xx".toList ∧
    inl .mp_man (initSt [] ' ') ('[' :: "xx".toList) =
      .cont { initSt [] ' ' with buf := ['['], prev := '[' } "xx".toList := by
  have h := c10_link_fallback .mp_man (initSt [] ' ') "xx".toList (by decide)
  exact ⟨h.1, h.2⟩

theorem roff_stk_par_end (mp : Mpack) (stk : List LFrame) :
    (roff mp stk .par_end).2 = stk := rfl

theorem roff_stk_li_end (mp : Mpack) (stk : List LFrame) :
    (roff mp stk .li_end).2 = stk := rfl

theorem roff_stk_lst_close (mp : Mpack) (stk : List LFrame) :
    (roff mp stk .lst_close).2 = stk := rfl

theorem roff_stk_cblock_open (mp : Mpack) (stk : List LFrame) :
    (roff mp stk .cblock_open).2 = stk := rfl

theorem roff_stk_cblock_end (mp : Mpack) (stk : List LFrame) :
    (roff mp stk .cblock_end).2 = stk := rfl

theorem roff_stk_ol_open (mp : Mpack) (stk : List LFrame) :
    (roff mp stk .ol_open).2 = ⟨.ol, 1⟩ :: stk := rfl

theorem roff_stk_ul_open (mp : Mpack) (stk : List LFrame) :
    (roff mp stk .ul_open).2 = ⟨.ul, 1⟩ :: stk := rfl

theorem roff_stk_li_open_len (mp : Mpack) (stk : List LFrame) :
    ((roff mp stk .li_open).2).length = stk.length := by
  cases mp with
  | mp_man =>
    cases stk with
    | nil => rfl
    | cons f fs =>
      obtain ⟨k, cnt⟩ := f
      cases k <;> rfl
  | mp_mm => rfl
  | mp_mdoc => rfl
  | mp_mom => rfl

theorem setTop_length (stk : List LFrame) (v : Int) :
    (setTop stk v).length = stk.length := by
  cases stk <;> rfl

theorem headerCase_stk (mp : Mpack) (st : St) (rest : List Char)
    (st' : St) (r' : List Char) :
    (headerCase mp st rest = .go st' r' → st'.stk = st.stk) ∧
    (headerCase mp st rest = .fall st' r' → st'.stk = st.stk) := by
  constructor <;>
  · intro h
    rw [headerCase.eq_def] at h
    simp only [] at h
    split at h
    · first
        | (cases h; rfl)
        | cases h
        | (injection h with h1 h2; subst h1; rfl)
    · split at h
      · first
          | (cases h; rfl)
          | cases h
          | (injection h with h1 h2; subst h1; rfl)
      · split at h
        · first
            | (cases h; rfl)
            | cases h
            | (injection h with h1 h2; subst h1; rfl)
        · split at h
          · first
              | (cases h; rfl)
              | cases h
              | (injection h with h1 h2; subst h1; rfl)
          · split at h
            · first
                | (cases h; rfl)
                | cases h
                | (injection h with h1 h2; subst h1; rfl)
            · first
                | (cases h; rfl)
                | cases h
                | (injection h with h1 h2; subst h1; rfl)

theorem olCase_stk_len (mp : Mpack) (st : St) (num r2 : List Char)
    (st' : St) (r' : List Char) (hlen : st.stk.length ≤ 1) :
    olCase mp st num r2 = .go st' r' → st'.stk.length ≤ 1 := by
  intro h
  rw [olCase.eq_def] at h
  simp only [] at h
  injection h with h1 h2
  subst h1
  show ((roff mp
      (setTop (if (flushSt st).stk.isEmpty = true
        then roff mp (flushSt st).stk .ol_open
        else roff mp (flushSt st).stk .li_end).2 (atoiDec num))
      .li_open).2).length ≤ 1
  rw [roff_stk_li_open_len, setTop_length]
  rw [apply_ite Prod.snd]
  by_cases he : (flushSt st).stk.isEmpty
  · simp only [he, if_true, roff_stk_ol_open]
    have : (flushSt st).stk = [] := by
      simpa [List.isEmpty_iff] using he
    simp [this]
  · simp only [he, if_false, roff_stk_li_end]
    exact hlen

theorem blineCase_stk (mp : Mpack) (st : St) (rest : List Char)
    (st' : St) (r' : List Char) (hlen : st.stk.length ≤ 1) :
    (blineCase mp st rest = .go st' r' → st'.stk.length ≤ 1) ∧
    (blineCase mp st rest = .fall st' r' → st'.stk = st.stk) := by
  cases rest with
  | nil =>
    constructor <;> intro h
    · cases h
    · cases h; rfl
  | cons c cs =>
    constructor
    · intro h
      rw [blineCase.eq_def] at h
      simp only [] at h
      repeat' split at h
      all_goals
        first
          | exact olCase_stk_len _ _ _ _ _ _ hlen h
          | (rw [(headerCase_stk mp (flushSt st) (c :: cs) st' r').1 h]
             exact hlen)
          | (cases h
             done)
          | (cases h; simpa [flushSt] using hlen)
          | (cases h
             simp_all [flushSt, List.isEmpty_iff, roff_stk_par_end,
               roff_stk_li_end, roff_stk_lst_close, roff_stk_ul_open,
               roff_stk_li_open_len, List.length_tail]
             try omega)
    · intro h
      rw [blineCase.eq_def] at h
      simp only [] at h
      repeat' split at h
      all_goals
        first
          | (cases h; rfl)
          | cases h
          | (rw [(headerCase_stk mp (flushSt st) (c :: cs) st' r').2 h]
             rfl)
          | (rw [olCase.eq_def] at h
             simp only [] at h
             cases h)

theorem inl_stk (mp : Mpack) (st : St) (rest : List Char)
    (st' : St) (r' : List Char) :
    inl mp st rest = .cont st' r' → st'.stk = st.stk := by
  intro h
  rw [inl.eq_def] at h
  simp only [] at h
  repeat' split at h
  all_goals
    first
      | (cases h
         done)
      | (cases h; rfl)

/-- C9: the list-stack depth never exceeds 1 during a conversion.  The
conversion starts from `initSt`, whose stack is empty (the
`stk_list_p = 0` reset); the only code that modifies the stack is the
start-of-line section (`blineCase`, which opens a list only when the
stack is empty and pops at most one frame on a blank line) — it keeps
the depth at most 1 — while the mid-line section (`inl`) and the
code-block and escape paths of the loop leave the stack untouched
(`roff` on the code-block events returns the stack unchanged).  In
particular the declared 32-entry capacity is never reached and lists
never nest. -/
theorem c9_stack_depth :
    (∀ (o : List Char) (pv : Char), (initSt o pv).stk = []) ∧
    (∀ (mp : Mpack) (st : St) (rest : List Char) (st' : St) (r' : List Char),
      st.stk.length ≤ 1 → blineCase mp st rest = .go st' r' →
      st'.stk.length ≤ 1) ∧
    (∀ (mp : Mpack) (st : St) (rest : List Char) (st' : St) (r' : List Char),
      st.stk.length ≤ 1 → blineCase mp st rest = .fall st' r' →
      st'.stk = st.stk) ∧
    (∀ (mp : Mpack) (st : St) (rest : List Char) (st' : St) (r' : List Char),
      inl mp st rest = .cont st' r' → st'.stk = st.stk) ∧
    (∀ (mp : Mpack) (stk : List LFrame),
      (roff mp stk .cblock_open).2 = stk ∧ (roff mp stk .cblock_end).2 = stk) := by
  refine ⟨fun _ _ => rfl, ?_, ?_, ?_, fun mp stk => ⟨rfl, rfl⟩⟩
  · intro mp st rest st' r' hlen h
    exact (blineCase_stk mp st rest st' r' hlen).1 h
  · intro mp st rest st' r' hlen h
    exact (blineCase_stk mp st rest st' r' hlen).2 h
  · exact inl_stk

/-- C9, witness: the step lemmas applied at a concrete state — opening
an unordered list from an empty stack yields depth 1, and a blank line
pops it back to depth 0 (both at most 1). -/
theorem c9_stack_depth_witness :
    (initSt [] ' ').stk = [] ∧
    (∀ st' r',
      blineCase .mp_man (initSt [] ' ') "* x\n".toList = .go st' r' →
      st'.stk.length ≤ 1) := by
  constructor
  · exact c9_stack_depth.1 [] ' '
  · intro st' r' h
    exact c9_stack_depth.2.1 .mp_man (initSt [] ' ') "* x\n".toList st' r'
      (by decide) h
